import Mathlib

/-!
Verification development for the Neogenesis audio visualizer.

The geometry and animation code is embedded shallowly:

* `Vec3` models `THREE.Vector3` with exact real coordinates (the source
  computes in IEEE doubles; we verify the ideal real-number algorithm).
* `Tri` models `THREE.Triangle` as a value type (three position vectors).
* `subdivideTriangle` / `subdivideN` embed the subdivision loop of
  `createNeogenesisFractal` (src/services/fractalGenerator.ts).
* The welder (`mergeVertices` + `computeVertexNormals`) is library code of
  three.js that is not part of this repository; it is modelled from the
  spec (see the `Welder` section below).
* `sampleBands` embeds the band-averaging block of the `animate` loop in
  src/hooks/useNeogenesis.ts; JavaScript division by zero produces NaN,
  which is modelled as `Option.none`.
* `fractalTick` embeds the fractal-planet position update of one frame of
  the `animate` loop.
* `particlePosition` / `regenerateParticles` embed `createParticleGeometry`
  and the radius-change effect; calls to `Math.random()` are modelled as
  reads from an explicit stream `ℕ → ℝ`.
-/

/-- Exact-real model of `THREE.Vector3`. -/
@[ext]
structure Vec3 where
  x : ℝ
  y : ℝ
  z : ℝ

namespace Vec3

instance : Zero Vec3 := ⟨⟨0, 0, 0⟩⟩

instance : Add Vec3 := ⟨fun a b => ⟨a.x + b.x, a.y + b.y, a.z + b.z⟩⟩

instance : Sub Vec3 := ⟨fun a b => ⟨a.x - b.x, a.y - b.y, a.z - b.z⟩⟩

instance : SMul ℝ Vec3 := ⟨fun c v => ⟨c * v.x, c * v.y, c * v.z⟩⟩

theorem zero_def : (0 : Vec3) = ⟨0, 0, 0⟩ := rfl

theorem add_def (a b : Vec3) : a + b = ⟨a.x + b.x, a.y + b.y, a.z + b.z⟩ := rfl

theorem sub_def (a b : Vec3) : a - b = ⟨a.x - b.x, a.y - b.y, a.z - b.z⟩ := rfl

theorem smul_def (c : ℝ) (v : Vec3) : c • v = ⟨c * v.x, c * v.y, c * v.z⟩ := rfl

/-- Euclidean length, `Vector3.length()`. -/
noncomputable def vlen (v : Vec3) : ℝ := Real.sqrt (v.x ^ 2 + v.y ^ 2 + v.z ^ 2)

/-- Model of `Vector3.normalize()`: three.js divides by `this.length() || 1`,
so the zero vector is left unchanged (no NaN is produced). -/
noncomputable def jsNormalize (v : Vec3) : Vec3 :=
  (if vlen v = 0 then 1 else vlen v)⁻¹ • v

/-- Cross product, as used by `computeVertexNormals` for face normals. -/
def cross (a b : Vec3) : Vec3 :=
  ⟨a.y * b.z - a.z * b.y, a.z * b.x - a.x * b.z, a.x * b.y - a.y * b.x⟩

theorem vlen_nonneg (v : Vec3) : 0 ≤ vlen v := Real.sqrt_nonneg _

theorem vlen_zero : vlen (0 : Vec3) = 0 := by
  simp [vlen, zero_def]

theorem vlen_eq_zero_iff (v : Vec3) : vlen v = 0 ↔ v = 0 := by
  constructor
  · intro h
    have hsum : v.x ^ 2 + v.y ^ 2 + v.z ^ 2 = 0 := by
      have hle : v.x ^ 2 + v.y ^ 2 + v.z ^ 2 ≤ 0 :=
        (Real.sqrt_eq_zero' (x := v.x ^ 2 + v.y ^ 2 + v.z ^ 2)).mp h
      have hge : 0 ≤ v.x ^ 2 + v.y ^ 2 + v.z ^ 2 := by positivity
      linarith
    have hx : v.x = 0 := by nlinarith [sq_nonneg v.x, sq_nonneg v.y, sq_nonneg v.z]
    have hy : v.y = 0 := by nlinarith [sq_nonneg v.x, sq_nonneg v.y, sq_nonneg v.z]
    have hz : v.z = 0 := by nlinarith [sq_nonneg v.x, sq_nonneg v.y, sq_nonneg v.z]
    ext <;> simp [hx, hy, hz, zero_def]
  · intro h
    subst h
    exact vlen_zero

theorem vlen_smul (c : ℝ) (v : Vec3) : vlen (c • v) = |c| * vlen v := by
  unfold vlen
  rw [smul_def]
  have h : (c * v.x) ^ 2 + (c * v.y) ^ 2 + (c * v.z) ^ 2
      = c ^ 2 * (v.x ^ 2 + v.y ^ 2 + v.z ^ 2) := by ring
  rw [h, Real.sqrt_mul (sq_nonneg c), Real.sqrt_sq_eq_abs]

theorem vlen_pos_of_ne_zero {v : Vec3} (h : v ≠ 0) : 0 < vlen v := by
  rcases lt_or_eq_of_le (vlen_nonneg v) with hlt | heq
  · exact hlt
  · exact absurd ((vlen_eq_zero_iff v).mp heq.symm) h

theorem vlen_jsNormalize {v : Vec3} (h : v ≠ 0) : vlen (jsNormalize v) = 1 := by
  have hpos : 0 < vlen v := vlen_pos_of_ne_zero h
  unfold jsNormalize
  rw [if_neg (ne_of_gt hpos), vlen_smul, abs_of_pos (inv_pos.mpr hpos)]
  field_simp

end Vec3

open Vec3

/-- Model of `THREE.Triangle`: a value type of three position vectors. -/
structure Tri where
  a : Vec3
  b : Vec3
  c : Vec3

namespace Subdivider

/-- Edge midpoint before projection: `new Vector3().addVectors(u, v).multiplyScalar(0.5)`. -/
def mid (u v : Vec3) : Vec3 := (0.5 : ℝ) • (u + v)

/-- Sphere projection of a midpoint: `m.normalize().multiplyScalar(radius)` with
`radius = tri.a.length()`. -/
noncomputable def projectOnSphere (radius : ℝ) (m : Vec3) : Vec3 :=
  radius • jsNormalize m

/-- Projected midpoint of edge a-b of a triangle (source name `m12`). -/
noncomputable def m12 (t : Tri) : Vec3 := projectOnSphere (vlen t.a) (mid t.a t.b)

/-- Projected midpoint of edge b-c of a triangle (source name `m23`). -/
noncomputable def m23 (t : Tri) : Vec3 := projectOnSphere (vlen t.a) (mid t.b t.c)

/-- Projected midpoint of edge c-a of a triangle (source name `m31`). -/
noncomputable def m31 (t : Tri) : Vec3 := projectOnSphere (vlen t.a) (mid t.c t.a)

/-- One triangle's children, exactly as pushed by the subdivision loop of
`createNeogenesisFractal`. -/
noncomputable def subdivideTriangle (t : Tri) : List Tri :=
  [⟨t.a, m12 t, m31 t⟩, ⟨t.b, m23 t, m12 t⟩, ⟨t.c, m31 t, m23 t⟩]

/-- One pass of the subdivision loop over the current triangle list. -/
noncomputable def subdivideStep (ts : List Tri) : List Tri :=
  ts.flatMap subdivideTriangle

/-- The whole subdivision loop: `recursionDepth` passes over the triangle list. -/
noncomputable def subdivideN (ts : List Tri) : ℕ → List Tri
  | 0 => ts
  | d + 1 => subdivideStep (subdivideN ts d)

/-- Statement of the spec: the three children described in §4.1, in order,
with `m_ab`, `m_bc`, `m_ca` the edge midpoints projected onto the sphere of
radius `|a|`. -/
noncomputable def specChildren (t : Tri) : List Tri :=
  let mab := projectOnSphere (vlen t.a) (mid t.a t.b)
  let mbc := projectOnSphere (vlen t.a) (mid t.b t.c)
  let mca := projectOnSphere (vlen t.a) (mid t.c t.a)
  [⟨t.a, mab, mca⟩, ⟨t.b, mbc, mab⟩, ⟨t.c, mca, mbc⟩]

end Subdivider

/-!
The Welder. `BufferGeometryUtils.mergeVertices` and
`BufferGeometry.computeVertexNormals` are three.js library code and are not
part of this repository; the definitions below are modelled from the spec:
§4.2 "Mesh Welder/Normalizer": merge vertices whose positions are equal
within a small fixed epsilon, keeping the first occurrence as the shared
vertex; build a face index; compute per-vertex normals as the normalized
sum of the adjacent faces' cross-product normals, after welding.
-/

namespace Welder

/-- Coincidence tolerance of the welder (spec: "a small fixed epsilon"). -/
noncomputable def eps : ℝ := 1 / 10000

/-- Positions equal within the coincidence epsilon, componentwise. -/
def close (a b : Vec3) : Prop :=
  |a.x - b.x| ≤ eps ∧ |a.y - b.y| ≤ eps ∧ |a.z - b.z| ≤ eps

theorem close_symm {a b : Vec3} (h : close a b) : close b a := by
  obtain ⟨hx, hy, hz⟩ := h
  exact ⟨by rwa [abs_sub_comm], by rwa [abs_sub_comm], by rwa [abs_sub_comm]⟩

open Classical in
/-- Index of the first already-kept representative vertex within epsilon of `v`. -/
noncomputable def findRep : List Vec3 → Vec3 → Option ℕ
  | [], _ => none
  | r :: rs, v => if close r v then some 0 else (findRep rs v).map (fun j => j + 1)

/-- One welding step: map a vertex to an existing representative, or keep it
as a new representative. -/
noncomputable def mergeStep (acc : List Vec3 × List ℕ) (v : Vec3) : List Vec3 × List ℕ :=
  match findRep acc.1 v with
  | some j => (acc.1, acc.2 ++ [j])
  | none => (acc.1 ++ [v], acc.2 ++ [acc.1.length])

/-- Weld a flat vertex list: representative positions plus a face index. -/
noncomputable def mergeVerts (vs : List Vec3) : List Vec3 × List ℕ :=
  vs.foldl mergeStep ([], [])

/-- Flat vertex buffer of a triangle list (three vertices per triangle). -/
def flatten (tris : List Tri) : List Vec3 := tris.flatMap (fun t => [t.a, t.b, t.c])

/-- Group the welded index into faces of three. -/
def triples : List ℕ → List (ℕ × ℕ × ℕ)
  | a :: b :: c :: rest => (a, b, c) :: triples rest
  | _ => []

/-- Face normal: cross product of the two edge vectors out of the first vertex. -/
def faceNormal (ps : List Vec3) (f : ℕ × ℕ × ℕ) : Vec3 :=
  cross (ps.getD f.2.1 0 - ps.getD f.1 0) (ps.getD f.2.2 0 - ps.getD f.1 0)

/-- Face `f` is adjacent to welded vertex `j`. -/
def touches (j : ℕ) (f : ℕ × ℕ × ℕ) : Bool :=
  f.1 == j || f.2.1 == j || f.2.2 == j

/-- Sum of the adjacent faces' normals at welded vertex `j`. -/
def normalSum (ps : List Vec3) (faces : List (ℕ × ℕ × ℕ)) (j : ℕ) : Vec3 :=
  ((faces.filter (touches j)).map (faceNormal ps)).foldl (· + ·) 0

/-- Final renderable mesh: shared positions, face index, per-vertex normals. -/
structure WeldedMesh where
  positions : List Vec3
  index : List ℕ
  normals : List Vec3

/-- The whole welder: merge coincident vertices, then compute per-vertex
normals as the normalized sum of adjacent face normals. -/
noncomputable def weld (tris : List Tri) : WeldedMesh :=
  let m := mergeVerts (flatten tris)
  let faces := triples m.2
  { positions := m.1
    index := m.2
    normals := (List.range m.1.length).map (fun j => jsNormalize (normalSum m.1 faces j)) }

/-- Non-degenerate input: at every welded vertex the summed face normal is
nonzero (the spec's "pathologically degenerate" case excluded). -/
def nonDegenerate (tris : List Tri) : Prop :=
  ∀ j < (mergeVerts (flatten tris)).1.length,
    normalSum (mergeVerts (flatten tris)).1 (triples (mergeVerts (flatten tris)).2) j ≠ 0

end Welder

/-!
The fractal generator pipeline, embedded from
src/services/fractalGenerator.ts.
-/

/-- Model of `THREE.BufferGeometry` as used by the generator: a position
attribute, a normal attribute (empty when absent) and an optional index. -/
structure BufferGeometry where
  positions : List Vec3
  normals : List Vec3
  index : Option (List ℕ)

/-- Decompose a geometry into triangles: via the index buffer when indexed,
else by consecutive vertex triples (out-of-range reads default to 0 where
JavaScript would read NaN; never reached on well-formed input). -/
def trianglesOf (g : BufferGeometry) : List Tri :=
  match g.index with
  | some idx =>
      (List.range ((idx.length + 2) / 3)).map (fun k =>
        ⟨g.positions.getD (idx.getD (3 * k) 0) 0,
         g.positions.getD (idx.getD (3 * k + 1) 0) 0,
         g.positions.getD (idx.getD (3 * k + 2) 0) 0⟩)
  | none =>
      (List.range ((g.positions.length + 2) / 3)).map (fun k =>
        ⟨g.positions.getD (3 * k) 0,
         g.positions.getD (3 * k + 1) 0,
         g.positions.getD (3 * k + 2) 0⟩)

/-- Model of `createNeogenesisFractal`: decompose, return the base unchanged at depth
0, otherwise subdivide `depth` times, then merge and weld (the merge of the
per-triangle geometries is the flat vertex buffer fed to the welder). -/
noncomputable def createNeogenesisFractal (g : BufferGeometry) (depth : ℕ) : BufferGeometry :=
  let initialTriangles := trianglesOf g
  if depth = 0 then g
  else
    match Subdivider.subdivideN initialTriangles depth with
    | [] => ⟨[], [], none⟩
    | ts =>
        let w := Welder.weld ts
        ⟨w.positions, w.normals, some w.index⟩

/-!
The Audio Band Sampler, embedded from the band-averaging block of the
`animate` loop (src/hooks/useNeogenesis.ts). `Array.slice` truncates its
fractional bounds toward zero, so the bass band is the first
`⌊binCount/10⌋` bins and the treble band is bins
`[⌊2·binCount/5⌋, ⌊4·binCount/5⌋)`. `reduce(...)/ (length * 255)` on an
empty band is JavaScript `0/0 = NaN`, modelled as `none`.
-/

namespace Bands

/-- Mean of a band, normalized by 255; `none` models the NaN produced by
dividing by zero on an empty band. -/
def sliceMean (l : List ℕ) : Option ℚ :=
  if l.length = 0 then none
  else some ((l.sum : ℚ) / ((l.length : ℚ) * 255))

/-- Bass band, `freqData.slice(0, binCount * 0.1)`. -/
def bassFreqs (f : List ℕ) : List ℕ := f.take (f.length / 10)

/-- Treble band, `freqData.slice(binCount * 0.4, binCount * 0.8)`. -/
def trebleFreqs (f : List ℕ) : List ℕ :=
  (f.drop (2 * f.length / 5)).take (4 * f.length / 5 - 2 * f.length / 5)

/-- Band averages `bassAvg` and `trebleAvg` of one tick. -/
def sampleBands (f : List ℕ) : Option ℚ × Option ℚ :=
  (sliceMean (bassFreqs f), sliceMean (trebleFreqs f))

/-- Statement of the spec: the integer bin indices lying in the real
interval `[0, 0.1 * n)`; for a natural `i`, `(i : ℚ) < n / 10` holds
exactly when `10 * i < n` (see `specBassIdx_mem`). -/
def specBassIdx (n : ℕ) : List ℕ := (List.range n).filter (fun i => 10 * i < n)

/-- Statement of the spec: bass as the mean of the normalized magnitudes
over the integer bin indices in `[0, 0.1 * n)`. -/
def specBass (f : List ℕ) : ℚ :=
  ((specBassIdx f.length).map (fun i => (f.getD i 0 : ℚ) / 255)).sum
    / ((specBassIdx f.length).length : ℚ)

end Bands

/-!
The Deformation Engine: the fractal-planet position update of one tick of
the `animate` loop (src/hooks/useNeogenesis.ts). The shared geometry's
position and normal attributes, the captured resting positions
(`originalFractalPositionsRef`, `none` before capture) and the previous
tick's wireframe flag (`lastWireframeStateRef`) form the state; the
parameter snapshot, the frequency frame (`none` when the audio collaborator
provides no data) and the smoothed bass scalar are the tick's inputs.
-/

namespace Deform

/-- The tick-relevant fields of the parameter snapshot. -/
structure TickProps where
  wireframe : Bool
  waveAmplitude : ℝ
  waveSmoothing : ℝ

/-- Fractal geometry state carried across ticks. -/
structure FractalState where
  positions : List Vec3
  normals : List Vec3
  original : Option (List Vec3)
  lastWireframe : Bool

/-- Model of `Vector3.lerp(v, alpha)`: componentwise `x += (v.x - x) * alpha`. -/
def lerp3 (cur target : Vec3) (alpha : ℝ) : Vec3 :=
  ⟨cur.x + (target.x - cur.x) * alpha,
   cur.y + (target.y - cur.y) * alpha,
   cur.z + (target.z - cur.z) * alpha⟩

/-- Per-vertex body of the Deforming-mode loop. -/
noncomputable def deformVertex (orig normals : List Vec3) (fd : List ℕ) (amp bass rate : ℝ)
    (cur : Vec3) (i : ℕ) : Vec3 :=
  let freqValue : ℝ := (fd.getD (i % fd.length) 0 : ℕ) / 255
  let displacement := freqValue * amp * (1 + bass)
  let o := orig.getD i 0
  let n := normals.getD i 0
  lerp3 cur ⟨o.x + n.x * displacement, o.y + n.y * displacement, o.z + n.z * displacement⟩ rate

/-- One tick of the fractal-planet update: Deforming-mode displacement when
wireframe is on and both the frequency frame and the resting snapshot are
available; hard reset to the resting snapshot on the wireframe-off tick that
follows a wireframe-on tick; otherwise positions are left untouched. The
previous-tick wireframe flag is recorded at the end of every tick. -/
noncomputable def fractalTick (st : FractalState) (p : TickProps) (freqData : Option (List ℕ))
    (bass : ℝ) : FractalState :=
  if p.wireframe then
    match freqData, st.original with
    | some fd, some orig =>
        { st with
          positions := (List.range st.positions.length).map
            (fun i => deformVertex orig st.normals fd p.waveAmplitude bass p.waveSmoothing
              (st.positions.getD i 0) i)
          lastWireframe := p.wireframe }
    | _, _ => { st with lastWireframe := p.wireframe }
  else if st.lastWireframe then
    match st.original with
    | some orig => { st with positions := orig, lastWireframe := p.wireframe }
    | none => { st with lastWireframe := p.wireframe }
  else { st with lastWireframe := p.wireframe }

/-- Statement of the spec: `targetPosition = restingPosition + normal *
(freqValue * waveAmplitude * (1 + smoothedBass))` with `freqValue` the raw
byte normalized by 255. -/
noncomputable def specTargetPosition (rest n : Vec3) (freqByte : ℕ) (amp bass : ℝ) : Vec3 :=
  rest + ((freqByte : ℝ) / 255 * amp * (1 + bass)) • n

end Deform

/-!
The particle galaxy: `createParticleGeometry` and the radius-change
regeneration effect (src/hooks/useNeogenesis.ts). `Math.random()` is
modelled as a read from an explicit stream of reals; each particle consumes
the three stream entries `3i`, `3i+1`, `3i+2` (u, v, and the cube-root draw).
-/

namespace Particles

/-- Number of galaxy particles (source constant `PARTICLE_COUNT`). -/
def PARTICLE_COUNT : ℕ := 20000

/-- One particle's position: uniform direction from (u, v) and radius
`radius * cbrt(random())`. -/
noncomputable def particlePosition (radius : ℝ) (stream : ℕ → ℝ) (i : ℕ) : Vec3 :=
  let u := stream (3 * i)
  let v := stream (3 * i + 1)
  let theta := 2 * Real.pi * u
  let phi := Real.arccos (2 * v - 1)
  let r := radius * stream (3 * i + 2) ^ ((1 : ℝ) / 3)
  ⟨r * Real.sin phi * Real.cos theta,
   r * Real.sin phi * Real.sin theta,
   r * Real.cos phi⟩

/-- The freshly generated position buffer of `createParticleGeometry`. -/
noncomputable def particlePositions (count : ℕ) (radius : ℝ) (stream : ℕ → ℝ) : List Vec3 :=
  (List.range count).map (particlePosition radius stream)

/-- The particle geometry's attribute buffers. -/
structure ParticleGeometry where
  position : List Vec3
  initialPosition : List Vec3
  color : List ℝ
  size : List ℝ
  random : List ℝ

/-- The radius-change effect: build a fresh geometry with
`createParticleGeometry(PARTICLE_COUNT, radius)` (whose initial-position
buffer is a copy of its position buffer) and carry the color, size and
random attributes over from the old geometry. -/
noncomputable def regenerateParticles (old : ParticleGeometry) (radius : ℝ)
    (stream : ℕ → ℝ) : ParticleGeometry :=
  { position := particlePositions PARTICLE_COUNT radius stream
    initialPosition := particlePositions PARTICLE_COUNT radius stream
    color := old.color
    size := old.size
    random := old.random }

end Particles


/-!
Concrete inputs used by witnesses and counterexamples below.
-/

/-- Triangle whose first edge has antipodal endpoints, so its a-b midpoint
is the origin. -/
def triAnti : Tri := ⟨⟨1, 0, 0⟩, ⟨-1, 0, 0⟩, ⟨0, 1, 0⟩⟩

/-- Concrete triangle for the C2 witness. -/
def triW : Tri := ⟨⟨1, 0, 0⟩, ⟨0, 1, 0⟩, ⟨0, 0, 1⟩⟩

/-- Concrete one-vertex state for the C3 witness. -/
def stW3 : Deform.FractalState := ⟨[⟨1, 2, 3⟩], [⟨0, 0, 1⟩], some [⟨1, 2, 3⟩], true⟩

/-- Concrete parameter snapshot for the C3 witness. -/
noncomputable def pW3 : Deform.TickProps := ⟨true, 2, 1 / 2⟩

/-- Concrete frequency frame for the C3 witness. -/
def fdW3 : List ℕ := [128]

/-- Concrete state for the C4 witness: displaced position, previous tick in
Deforming mode. -/
def stW4 : Deform.FractalState := ⟨[⟨5, 5, 5⟩], [], some [⟨0, 1, 2⟩], true⟩

/-- Concrete parameter snapshot for the C4 witness: wireframe just turned off. -/
def pW4 : Deform.TickProps := ⟨false, 0, 0⟩

/-- Concrete state for the C6 witness: resting snapshot not yet captured. -/
def stW6 : Deform.FractalState := ⟨[⟨9, 9, 9⟩], [], none, false⟩

/-- Concrete parameter snapshot for the C6 witness: Deforming mode on. -/
def pW6 : Deform.TickProps := ⟨true, 1, 1⟩

/-- Frame of 16 bins whose second bin is 255 and all others 0, separating
the code's truncated band from the spec's real-interval band. -/
def frame16 : List ℕ := 0 :: 255 :: List.replicate 14 0

/-- First vertex of the C9 witness triangle. -/
def w0 : Vec3 := ⟨0, 0, 0⟩

/-- Second vertex of the C9 witness triangle. -/
def w1 : Vec3 := ⟨1, 0, 0⟩

/-- Third vertex of the C9 witness triangle. -/
def w2 : Vec3 := ⟨0, 1, 0⟩

/-- Concrete triangle list for the C9 witness. -/
def trisW9 : List Tri := [⟨w0, w1, w2⟩]

/-!
Theorems. Helper lemmas come first, then one theorem per claim (with
witnesses and counterexamples where required).
-/

theorem subdivideStep_length (ts : List Tri) :
    (Subdivider.subdivideStep ts).length = 3 * ts.length := by
  induction ts with
  | nil => rfl
  | cons t ts ih =>
    simp only [Subdivider.subdivideStep, List.flatMap_cons, List.length_append] at *
    rw [ih]
    simp [Subdivider.subdivideTriangle]
    ring

/-- C1: each subdivision step maps a triangle (a,b,c) to exactly the three
children (a, m_ab, m_ca), (b, m_bc, m_ab), (c, m_ca, m_bc), in that order —
the center triangle (m_ab, m_bc, m_ca) is not among them — and therefore
`d` subdivision passes over `n` input triangles emit exactly `n * 3 ^ d`
triangles (in particular for every depth d ≥ 1). -/
theorem subdivider_emits_three_children_and_count :
    (∀ t : Tri, Subdivider.subdivideTriangle t = Subdivider.specChildren t) ∧
    ∀ (ts : List Tri) (d : ℕ), (Subdivider.subdivideN ts d).length = ts.length * 3 ^ d := by
  refine ⟨fun t => rfl, fun ts d => ?_⟩
  induction d with
  | zero => simp [Subdivider.subdivideN]
  | succ d ih =>
    show (Subdivider.subdivideStep (Subdivider.subdivideN ts d)).length = _
    rw [subdivideStep_length, ih]
    ring

theorem mid_triAnti_ab : Subdivider.mid triAnti.a triAnti.b = 0 := by
  ext <;> simp [Subdivider.mid, triAnti, smul_def, add_def, zero_def]

theorem jsNormalize_zero : jsNormalize (0 : Vec3) = 0 := by
  unfold jsNormalize
  rw [if_pos vlen_zero]
  ext <;> simp [smul_def, zero_def]

/-- C2 counterexample: for the triangle ((1,0,0), (-1,0,0), (0,1,0)) the
projected a-b midpoint is the origin (three.js `normalize()` maps the zero
vector to itself), so its distance from the origin is 0, not |a| = 1. -/
theorem midpoint_projection_counterexample :
    vlen (Subdivider.m12 triAnti) ≠ vlen triAnti.a := by
  have h1 : Subdivider.m12 triAnti = 0 := by
    rw [Subdivider.m12, mid_triAnti_ab, Subdivider.projectOnSphere, jsNormalize_zero]
    ext <;> simp [smul_def, zero_def]
  have h2 : vlen triAnti.a = 1 := by
    show Real.sqrt _ = 1
    rw [show triAnti.a.x ^ 2 + triAnti.a.y ^ 2 + triAnti.a.z ^ 2 = 1 by norm_num [triAnti],
      Real.sqrt_one]
  rw [h1, h2, vlen_zero]
  norm_num

theorem projectOnSphere_vlen {m : Vec3} (r : ℝ) (hr : 0 ≤ r) (hm : m ≠ 0) :
    vlen (Subdivider.projectOnSphere r m) = r := by
  unfold Subdivider.projectOnSphere
  rw [vlen_smul, vlen_jsNormalize hm, abs_of_nonneg hr, mul_one]

/-- C2 (amended): for every triangle whose edge midpoints are nonzero (the
counterexample's antipodal edge excluded), each projected midpoint lies at
distance |a| from the origin, |a| being the length of the triangle's first
vertex. -/
theorem midpoint_projection_radius (t : Tri)
    (h12 : Subdivider.mid t.a t.b ≠ 0) (h23 : Subdivider.mid t.b t.c ≠ 0)
    (h31 : Subdivider.mid t.c t.a ≠ 0) :
    vlen (Subdivider.m12 t) = vlen t.a ∧ vlen (Subdivider.m23 t) = vlen t.a ∧
      vlen (Subdivider.m31 t) = vlen t.a :=
  ⟨projectOnSphere_vlen _ (vlen_nonneg t.a) h12,
   projectOnSphere_vlen _ (vlen_nonneg t.a) h23,
   projectOnSphere_vlen _ (vlen_nonneg t.a) h31⟩

theorem midW_ab : Subdivider.mid triW.a triW.b ≠ 0 := by
  intro h
  have hx := congrArg Vec3.x h
  simp [Subdivider.mid, triW, smul_def, add_def, zero_def] at hx
  norm_num at hx

theorem midW_bc : Subdivider.mid triW.b triW.c ≠ 0 := by
  intro h
  have hy := congrArg Vec3.y h
  simp [Subdivider.mid, triW, smul_def, add_def, zero_def] at hy
  norm_num at hy

theorem midW_ca : Subdivider.mid triW.c triW.a ≠ 0 := by
  intro h
  have hx := congrArg Vec3.x h
  simp [Subdivider.mid, triW, smul_def, add_def, zero_def] at hx
  norm_num at hx

/-- Witness for `midpoint_projection_radius` at the concrete triangle
((1,0,0), (0,1,0), (0,0,1)), all of whose edge midpoints are nonzero. -/
theorem midpoint_projection_radius_witness :
    (Subdivider.mid triW.a triW.b ≠ 0 ∧ Subdivider.mid triW.b triW.c ≠ 0 ∧
      Subdivider.mid triW.c triW.a ≠ 0) ∧
    (vlen (Subdivider.m12 triW) = vlen triW.a ∧ vlen (Subdivider.m23 triW) = vlen triW.a ∧
      vlen (Subdivider.m31 triW) = vlen triW.a) :=
  ⟨⟨midW_ab, midW_bc, midW_ca⟩, midpoint_projection_radius triW midW_ab midW_bc midW_ca⟩

/-- C8: calling the generator with depth 0 returns the base geometry itself,
unchanged — no subdivision, no welding, no vertex altered — and hence its
triangle decomposition (by index buffer if indexed, else by consecutive
vertex triples) is exactly that of the base mesh. -/
theorem fractal_depth_zero_identity (g : BufferGeometry) :
    createNeogenesisFractal g 0 = g ∧
      trianglesOf (createNeogenesisFractal g 0) = trianglesOf g :=
  ⟨rfl, rfl⟩

/-- C3: in Deforming mode (wireframe on, frequency frame and resting
snapshot available, nonempty frame), every vertex's new position is the
linear interpolation — at rate equal to the wave-smoothing parameter,
componentwise — of its current position toward
`restingPosition + normal * (AudioFrame[i mod frameLength]/255 *
waveAmplitude * (1 + smoothedBass))`. -/
theorem deforming_mode_update (st : Deform.FractalState) (p : Deform.TickProps)
    (freqData : Option (List ℕ)) (bass : ℝ) (fd : List ℕ) (orig : List Vec3)
    (hw : p.wireframe = true) (hf : freqData = some fd) (ho : st.original = some orig)
    (hn : 0 < fd.length) :
    ∀ i, i < st.positions.length →
      (Deform.fractalTick st p freqData bass).positions.getD i 0 =
        Deform.lerp3 (st.positions.getD i 0)
          (Deform.specTargetPosition (orig.getD i 0) (st.normals.getD i 0)
            (fd.getD (i % fd.length) 0) p.waveAmplitude bass)
          p.waveSmoothing := by
  intro i hi
  simp only [Deform.fractalTick, hw, hf, ho, if_true]
  rw [List.getD_eq_getElem?_getD, List.getElem?_map, List.getElem?_range hi]
  simp only [Option.map_some', Option.getD_some]
  apply Vec3.ext <;>
    simp only [Deform.deformVertex, Deform.specTargetPosition, Deform.lerp3,
      add_def, smul_def] <;>
    ring

/-- Witness for `deforming_mode_update` at a concrete one-vertex state. -/
theorem deforming_mode_update_witness :
    (pW3.wireframe = true ∧ (some fdW3 : Option (List ℕ)) = some fdW3 ∧
      stW3.original = some [⟨1, 2, 3⟩] ∧ 0 < fdW3.length) ∧
    ∀ i, i < stW3.positions.length →
      (Deform.fractalTick stW3 pW3 (some fdW3) 0).positions.getD i 0 =
        Deform.lerp3 (stW3.positions.getD i 0)
          (Deform.specTargetPosition (([⟨1, 2, 3⟩] : List Vec3).getD i 0)
            (stW3.normals.getD i 0) (fdW3.getD (i % fdW3.length) 0) pW3.waveAmplitude 0)
          pW3.waveSmoothing :=
  ⟨⟨rfl, rfl, rfl, by decide⟩,
   deforming_mode_update stW3 pW3 (some fdW3) 0 fdW3 [⟨1, 2, 3⟩] rfl rfl rfl (by decide)⟩

/-- C4: on the tick whose wireframe flag is off while the previous tick's
was on, and with the resting snapshot present, the whole position buffer is
set to the resting positions in one assignment — no interpolation. -/
theorem transition_reset_positions (st : Deform.FractalState) (p : Deform.TickProps)
    (freqData : Option (List ℕ)) (bass : ℝ) (orig : List Vec3)
    (hw : p.wireframe = false) (hl : st.lastWireframe = true)
    (ho : st.original = some orig) :
    (Deform.fractalTick st p freqData bass).positions = orig := by
  simp [Deform.fractalTick, hw, hl, ho]

/-- Witness for `transition_reset_positions` at a concrete transition tick. -/
theorem transition_reset_positions_witness :
    (pW4.wireframe = false ∧ stW4.lastWireframe = true ∧
      stW4.original = some [⟨0, 1, 2⟩]) ∧
    (Deform.fractalTick stW4 pW4 none 0).positions = [⟨0, 1, 2⟩] :=
  ⟨⟨rfl, rfl, rfl⟩, transition_reset_positions stW4 pW4 none 0 [⟨0, 1, 2⟩] rfl rfl rfl⟩

/-- C6: on a Deforming-mode tick with no frequency frame or no captured
resting snapshot, the displacement loop is skipped and the position buffer
is exactly what it was at the end of the previous tick. -/
theorem deforming_skip_holds_positions (st : Deform.FractalState) (p : Deform.TickProps)
    (freqData : Option (List ℕ)) (bass : ℝ) (hw : p.wireframe = true)
    (h : freqData = none ∨ st.original = none) :
    (Deform.fractalTick st p freqData bass).positions = st.positions := by
  rcases h with h | h
  · simp [Deform.fractalTick, hw, h]
  · cases freqData <;> simp [Deform.fractalTick, hw, h]

/-- Witness for `deforming_skip_holds_positions` with no audio data and no
resting snapshot. -/
theorem deforming_skip_holds_positions_witness :
    (pW6.wireframe = true ∧ ((none : Option (List ℕ)) = none ∨ stW6.original = none)) ∧
    (Deform.fractalTick stW6 pW6 none 0).positions = stW6.positions :=
  ⟨⟨rfl, Or.inl rfl⟩, deforming_skip_holds_positions stW6 pW6 none 0 rfl (Or.inl rfl)⟩

theorem fractalTick_normals (st : Deform.FractalState) (p : Deform.TickProps)
    (f : Option (List ℕ)) (b : ℝ) :
    (Deform.fractalTick st p f b).normals = st.normals := by
  rcases st with ⟨pos, norm, orig, lw⟩
  rcases p with ⟨w, amp, s⟩
  cases w <;> cases lw <;> cases f <;> cases orig <;> simp [Deform.fractalTick]

/-- C10: no per-frame fractal update ever writes the normal attribute: one
tick preserves the normal buffer, and so does any sequence of ticks, so the
normals always hold the values computed for the resting geometry of the
current mesh. -/
theorem normals_never_written_per_frame (st : Deform.FractalState) :
    (∀ (p : Deform.TickProps) (f : Option (List ℕ)) (b : ℝ),
      (Deform.fractalTick st p f b).normals = st.normals) ∧
    ∀ ticks : List (Deform.TickProps × Option (List ℕ) × ℝ),
      (ticks.foldl (fun s t => Deform.fractalTick s t.1 t.2.1 t.2.2) st).normals
        = st.normals := by
  refine ⟨fun p f b => fractalTick_normals st p f b, fun ticks => ?_⟩
  induction ticks generalizing st with
  | nil => rfl
  | cons t ts ih => rw [List.foldl_cons, ih, fractalTick_normals]

theorem specBassIdx_mem (n i : ℕ) :
    i ∈ Bands.specBassIdx n ↔ (0 : ℚ) ≤ (i : ℚ) ∧ (i : ℚ) < (n : ℚ) / 10 := by
  constructor
  · intro h
    rw [Bands.specBassIdx, List.mem_filter] at h
    obtain ⟨-, h2⟩ := h
    have h2' : 10 * i < n := of_decide_eq_true h2
    refine ⟨by positivity, ?_⟩
    rw [lt_div_iff₀ (by norm_num)]
    have hq : ((10 * i : ℕ) : ℚ) < (n : ℚ) := by exact_mod_cast h2'
    push_cast at hq
    linarith
  · rintro ⟨-, h2⟩
    rw [Bands.specBassIdx, List.mem_filter]
    rw [lt_div_iff₀ (by norm_num)] at h2
    have hq : ((10 * i : ℕ) : ℚ) < (n : ℚ) := by push_cast; linarith
    have h2' : 10 * i < n := by exact_mod_cast hq
    exact ⟨List.mem_range.mpr (by omega), decide_eq_true h2'⟩

/-- C5 counterexample: with 16 bins the real-interval reading of "indices
[0, 0.1*n)" contains bins 0 and 1, whose normalized mean on `frame16` is
1/2, while the code's `slice(0, binCount * 0.1)` truncates to one bin and
returns bass 0; and on an all-zero 5-bin frame the bass band is empty, so
the code divides 0 by 0 (NaN, modelled `none`) instead of returning 0. -/
theorem sampleBands_counterexample :
    (Bands.sampleBands frame16).1 = some 0 ∧
    Bands.specBass frame16 = 1 / 2 ∧
    (Bands.sampleBands (List.replicate 5 0)).1 = none := by
  refine ⟨?_, ?_, ?_⟩
  · have h : Bands.bassFreqs frame16 = [0] := by
      simp [Bands.bassFreqs, frame16]
    show Bands.sliceMean (Bands.bassFreqs frame16) = some 0
    rw [h]
    simp [Bands.sliceMean]
  · have hlen : frame16.length = 16 := by simp [frame16]
    have hidx : Bands.specBassIdx 16 = [0, 1] := by decide
    have hv : frame16.getD 1 0 = 255 := rfl
    have hv0 : frame16.getD 0 0 = 0 := rfl
    simp only [Bands.specBass, hlen, hidx, List.map_cons, List.map_nil, hv, hv0,
      List.length_cons, List.length_nil]
    norm_num
  · have h : Bands.bassFreqs (List.replicate 5 0) = [] := by
      simp [Bands.bassFreqs]
    show Bands.sliceMean (Bands.bassFreqs (List.replicate 5 0)) = none
    rw [h]
    simp [Bands.sliceMean]

theorem bassFreqs_replicate (n a : ℕ) :
    Bands.bassFreqs (List.replicate n a) = List.replicate (n / 10) a := by
  simp [Bands.bassFreqs, List.take_replicate, Nat.min_eq_left (Nat.div_le_self n 10)]

theorem trebleFreqs_replicate (n a : ℕ) :
    Bands.trebleFreqs (List.replicate n a)
      = List.replicate (4 * n / 5 - 2 * n / 5) a := by
  have h1 : 4 * n / 5 ≤ n := by omega
  simp only [Bands.trebleFreqs, List.length_replicate, List.drop_replicate,
    List.take_replicate]
  congr 1
  omega

theorem sliceMean_replicate_zero {k : ℕ} (hk : k ≠ 0) :
    Bands.sliceMean (List.replicate k 0) = some 0 := by
  simp [Bands.sliceMean, hk]

theorem sliceMean_replicate_max {k : ℕ} (hk : k ≠ 0) :
    Bands.sliceMean (List.replicate k 255) = some 1 := by
  have hk' : (k : ℚ) ≠ 0 := Nat.cast_ne_zero.mpr hk
  simp only [Bands.sliceMean, List.length_replicate, hk, if_false, List.sum_replicate,
    smul_eq_mul]
  congr 1
  push_cast
  field_simp

/-- C5 (amended): the bass band is the first `⌊n/10⌋` bins and the treble
band the bins `[⌊2n/5⌋, ⌊4n/5⌋)` — `Array.slice` truncates its fractional
bounds — and each mean is defined only when its band is nonempty (an empty
band divides 0 by 0, NaN). For every bin count n ≥ 10 both bands are
nonempty, an all-zero frame yields (0, 0) and an all-255 frame yields
(1, 1). -/
theorem sampleBands_floor_bands (n : ℕ) (hn : 10 ≤ n) :
    Bands.sampleBands (List.replicate n 0) = (some 0, some 0) ∧
    Bands.sampleBands (List.replicate n 255) = (some 1, some 1) := by
  have hb : n / 10 ≠ 0 := by omega
  have ht : 4 * n / 5 - 2 * n / 5 ≠ 0 := by omega
  constructor <;>
    simp only [Bands.sampleBands, bassFreqs_replicate, trebleFreqs_replicate,
      sliceMean_replicate_zero hb, sliceMean_replicate_zero ht,
      sliceMean_replicate_max hb, sliceMean_replicate_max ht]

/-- Witness for `sampleBands_floor_bands` at the smallest bin count with
nonempty bands, n = 10. -/
theorem sampleBands_floor_bands_witness :
    10 ≤ 10 ∧
    (Bands.sampleBands (List.replicate 10 0) = (some 0, some 0) ∧
      Bands.sampleBands (List.replicate 10 255) = (some 1, some 1)) :=
  ⟨by decide, sampleBands_floor_bands 10 (by decide)⟩

/-- C7: regenerating the particle field at a new radius keeps the color,
size and per-particle random buffers exactly those of the prior geometry
(aligned 1:1 by index, the particle count being the fixed constant), while
the position buffer is freshly generated (the initial-position buffer being
its copy); and with the same random draws, doubling the radius from 10 to
20 doubles every position vector and hence every position's magnitude. -/
theorem particle_regeneration_preserves_attributes (old : Particles.ParticleGeometry)
    (stream : ℕ → ℝ) :
    (Particles.regenerateParticles old 20 stream).color = old.color ∧
    (Particles.regenerateParticles old 20 stream).size = old.size ∧
    (Particles.regenerateParticles old 20 stream).random = old.random ∧
    (Particles.regenerateParticles old 20 stream).position
      = Particles.particlePositions Particles.PARTICLE_COUNT 20 stream ∧
    (Particles.regenerateParticles old 20 stream).initialPosition
      = (Particles.regenerateParticles old 20 stream).position ∧
    ∀ i : ℕ,
      Particles.particlePosition 20 stream i
        = (2 : ℝ) • Particles.particlePosition 10 stream i ∧
      vlen (Particles.particlePosition 20 stream i)
        = 2 * vlen (Particles.particlePosition 10 stream i) := by
  refine ⟨?_, ?_, ?_, ?_, ?_, fun i => ?_⟩
  · simp only [Particles.regenerateParticles]
  · simp only [Particles.regenerateParticles]
  · simp only [Particles.regenerateParticles]
  · simp only [Particles.regenerateParticles]
  · simp only [Particles.regenerateParticles]
  have hs : Particles.particlePosition 20 stream i
      = (2 : ℝ) • Particles.particlePosition 10 stream i := by
    apply Vec3.ext <;>
      simp only [Particles.particlePosition, smul_def] <;>
      ring
  refine ⟨hs, ?_⟩
  rw [hs, vlen_smul]
  norm_num

theorem findRep_eq_none_iff (rs : List Vec3) (v : Vec3) :
    Welder.findRep rs v = none ↔ ∀ r ∈ rs, ¬ Welder.close r v := by
  induction rs with
  | nil => simp [Welder.findRep]
  | cons r rs ih =>
    by_cases h : Welder.close r v
    · simp [Welder.findRep, h]
    · simp [Welder.findRep, h, ih]

theorem foldl_mergeStep_pairwise (vs : List Vec3) (acc : List Vec3 × List ℕ)
    (h : List.Pairwise (fun a b => ¬ Welder.close a b) acc.1) :
    List.Pairwise (fun a b => ¬ Welder.close a b) ((vs.foldl Welder.mergeStep acc)).1 := by
  induction vs generalizing acc with
  | nil => exact h
  | cons v vs ih =>
    rw [List.foldl_cons]
    apply ih
    unfold Welder.mergeStep
    rcases hf : Welder.findRep acc.1 v with _ | j
    · dsimp only
      rw [List.pairwise_append]
      refine ⟨h, List.pairwise_singleton _ _, ?_⟩
      intro a ha b hb
      rw [List.mem_singleton] at hb
      subst hb
      exact (findRep_eq_none_iff acc.1 _).mp hf a ha
    · exact h

theorem mergeVerts_pairwise (vs : List Vec3) :
    List.Pairwise (fun a b => ¬ Welder.close a b) (Welder.mergeVerts vs).1 :=
  foldl_mergeStep_pairwise vs ([], []) List.Pairwise.nil

/-- C9: for input on which no welded vertex has a vanishing summed face
normal (the spec's non-degeneracy), every normal produced by the welder has
unit length, and no two distinct surviving welded vertices are equal within
the coincidence epsilon. The welder itself is modelled from the spec: the
three.js utilities it names are not part of the repository. -/
theorem welder_unit_normals_and_separation (tris : List Tri)
    (h : Welder.nonDegenerate tris) :
    (∀ i (hi : i < (Welder.weld tris).normals.length),
      vlen ((Welder.weld tris).normals.get ⟨i, hi⟩) = 1) ∧
    ∀ i j (hi : i < (Welder.weld tris).positions.length)
      (hj : j < (Welder.weld tris).positions.length), i ≠ j →
      ¬ Welder.close ((Welder.weld tris).positions.get ⟨i, hi⟩)
        ((Welder.weld tris).positions.get ⟨j, hj⟩) := by
  constructor
  · intro i hi
    have hi' : i < (Welder.mergeVerts (Welder.flatten tris)).1.length := by
      simpa [Welder.weld] using hi
    have hget : (Welder.weld tris).normals.get ⟨i, hi⟩
        = jsNormalize (Welder.normalSum (Welder.mergeVerts (Welder.flatten tris)).1
            (Welder.triples (Welder.mergeVerts (Welder.flatten tris)).2) i) := by
      simp [Welder.weld]
    rw [hget]
    exact vlen_jsNormalize (h i hi')
  · intro i j hi hj hij
    have hpw := mergeVerts_pairwise (Welder.flatten tris)
    rw [List.pairwise_iff_getElem] at hpw
    have hi' : i < (Welder.mergeVerts (Welder.flatten tris)).1.length := hi
    have hj' : j < (Welder.mergeVerts (Welder.flatten tris)).1.length := hj
    rcases Nat.lt_or_ge i j with hlt | hge
    · exact hpw i j hi' hj' hlt
    · have hlt2 : j < i := by omega
      exact fun hc => hpw j i hj' hi' hlt2 (Welder.close_symm hc)

theorem closeW01 : ¬ Welder.close w0 w1 := by
  norm_num [Welder.close, Welder.eps, w0, w1, abs_le]

theorem closeW02 : ¬ Welder.close w0 w2 := by
  norm_num [Welder.close, Welder.eps, w0, w2, abs_le]

theorem closeW12 : ¬ Welder.close w1 w2 := by
  norm_num [Welder.close, Welder.eps, w1, w2, abs_le]

theorem findRepW1 : Welder.findRep [w0] w1 = none := by
  unfold Welder.findRep
  rw [if_neg closeW01]
  rfl

theorem findRepW12 : Welder.findRep [w1] w2 = none := by
  unfold Welder.findRep
  rw [if_neg closeW12]
  rfl

theorem findRepW2 : Welder.findRep [w0, w1] w2 = none := by
  unfold Welder.findRep
  rw [if_neg closeW02]
  rw [show Welder.findRep [w1] w2 = none from findRepW12]
  rfl

theorem mergeVerts_trisW9 :
    Welder.mergeVerts (Welder.flatten trisW9) = ([w0, w1, w2], [0, 1, 2]) := by
  have hfl : Welder.flatten trisW9 = [w0, w1, w2] := rfl
  rw [hfl]
  unfold Welder.mergeVerts
  rw [List.foldl_cons, List.foldl_cons, List.foldl_cons, List.foldl_nil]
  have s1 : Welder.mergeStep ([], []) w0 = ([w0], [0]) := by
    unfold Welder.mergeStep
    rw [show Welder.findRep [] w0 = none from rfl]
    rfl
  rw [s1]
  have s2 : Welder.mergeStep ([w0], [0]) w1 = ([w0, w1], [0, 1]) := by
    unfold Welder.mergeStep
    rw [findRepW1]
    rfl
  rw [s2]
  unfold Welder.mergeStep
  rw [findRepW2]
  rfl

theorem trisW9_nonDegenerate : Welder.nonDegenerate trisW9 := by
  intro j hj
  rw [mergeVerts_trisW9] at hj ⊢
  simp only [List.length_cons, List.length_nil] at hj
  interval_cases j <;>
    · intro hEq
      have hz := congrArg Vec3.z hEq
      simp [Welder.normalSum, Welder.triples, Welder.touches, Welder.faceNormal,
        cross, sub_def, add_def, zero_def, w0, w1, w2, List.getD_cons_zero,
        List.getD_cons_succ, List.foldl_cons, List.foldl_nil] at hz

/-- Witness for `welder_unit_normals_and_separation` at a single concrete
non-degenerate triangle. -/
theorem welder_unit_normals_and_separation_witness :
    Welder.nonDegenerate trisW9 ∧
    ((∀ i (hi : i < (Welder.weld trisW9).normals.length),
      vlen ((Welder.weld trisW9).normals.get ⟨i, hi⟩) = 1) ∧
    ∀ i j (hi : i < (Welder.weld trisW9).positions.length)
      (hj : j < (Welder.weld trisW9).positions.length), i ≠ j →
      ¬ Welder.close ((Welder.weld trisW9).positions.get ⟨i, hi⟩)
        ((Welder.weld trisW9).positions.get ⟨j, hj⟩)) :=
  ⟨trisW9_nonDegenerate, welder_unit_normals_and_separation trisW9 trisW9_nonDegenerate⟩
